import Mathlib

/-!
Verification of the policy compiler (`src/lib.rs` of `pngen/poc`).

The Rust sources are shallowly embedded: a Rust `&str` is modelled as the
list of its Unicode scalar values (`Str := List Nat`), fallible operations
return `Option` (with `none` modelling a Rust panic), and every function of
the compiler is translated into an executable Lean definition carrying the
source name.  Claim-side (specification) restatements are kept separate
from the embedded code and related to it by theorems.
-/

namespace Poc

/-- Rust strings are modelled as the list of their Unicode scalar values,
one `Nat` per Rust `char`. -/
abbrev Str := List Nat

/-- Scalar values of a Lean string literal; used to write concrete inputs. -/
def str (s : String) : Str := s.toList.map Char.toNat

/-- `char::is_whitespace`: the Unicode White_Space property (all 25 code
points carrying it). -/
def charIsWs (c : Nat) : Bool :=
  decide ((9 ≤ c ∧ c ≤ 13) ∨ c = 32 ∨ c = 133 ∨ c = 160 ∨ c = 5760 ∨
    (8192 ≤ c ∧ c ≤ 8202) ∨ c = 8232 ∨ c = 8233 ∨ c = 8239 ∨ c = 8287 ∨ c = 12288)

/-- `char::is_alphanumeric` (Unicode Alphabetic plus the Nd/Nl/No number
categories), tabulated exactly on scalar values below 0x100; larger values,
which occur in none of the clauses considered in this development, are
treated as non-alphanumeric. -/
def charIsAlnum (c : Nat) : Bool :=
  decide ((48 ≤ c ∧ c ≤ 57) ∨ (65 ≤ c ∧ c ≤ 90) ∨ (97 ≤ c ∧ c ≤ 122) ∨
    c = 170 ∨ c = 178 ∨ c = 179 ∨ c = 181 ∨ c = 185 ∨ c = 186 ∨
    (188 ≤ c ∧ c ≤ 190) ∨ (192 ≤ c ∧ c ≤ 214) ∨ (216 ≤ c ∧ c ≤ 246) ∨
    (248 ≤ c ∧ c ≤ 255))

/-- Per-character lowercase mapping, exact on ASCII and on the Latin-1
letters whose lowercase stays in Latin-1 (all of them). -/
def charLower (c : Nat) : Nat :=
  if (65 ≤ c ∧ c ≤ 90) ∨ (192 ≤ c ∧ c ≤ 222 ∧ c ≠ 215) then c + 32 else c

/-- Per-character uppercase mapping, exact on ASCII and on the Latin-1
letters whose uppercase stays in Latin-1; the three exceptions (ß, µ, ÿ,
whose Rust uppercase leaves Latin-1 or expands) are left unchanged and are
avoided in every concrete input of this development. -/
def charUpper (c : Nat) : Nat :=
  if (97 ≤ c ∧ c ≤ 122) ∨ (224 ≤ c ∧ c ≤ 254 ∧ c ≠ 247) then c - 32 else c

/-- `str::to_lowercase`. -/
def toLower (s : Str) : Str := s.map charLower

/-- `str::to_uppercase`. -/
def toUpper (s : Str) : Str := s.map charUpper

/-- `str::trim`: strips Unicode whitespace from both ends. -/
def rustTrim (s : Str) : Str :=
  ((s.dropWhile charIsWs).reverse.dropWhile charIsWs).reverse

/-- `str::trim_matches(|c: char| !c.is_alphanumeric())`: strips
non-alphanumeric characters from both ends of a token. -/
def trimNonAlnum (t : Str) : Str :=
  (((t.dropWhile fun c => !charIsAlnum c).reverse.dropWhile fun c => !charIsAlnum c)).reverse

/-- Does `pre` occur at the start of `s`? (helper for the substring test). -/
def strStarts : Str → Str → Bool
  | [], _ => true
  | _ :: _, [] => false
  | a :: as, b :: bs => a == b && strStarts as bs

/-- `str::contains(needle)`: `isSubstr needle hay` is the substring test. -/
def isSubstr (needle : Str) : Str → Bool
  | [] => needle.isEmpty
  | c :: rest => strStarts needle (c :: rest) || isSubstr needle rest

/-- `str::split_whitespace`, worker: `acc` holds the current word reversed. -/
def splitWsAux : Str → Str → List Str
  | [], acc => if acc.isEmpty then [] else [acc.reverse]
  | c :: rest, acc =>
    if charIsWs c then
      if acc.isEmpty then splitWsAux rest []
      else acc.reverse :: splitWsAux rest []
    else splitWsAux rest (c :: acc)

/-- `str::split_whitespace`: splits on runs of whitespace, yielding the
non-empty words in order. -/
def splitWs (s : Str) : List Str := splitWsAux s []

/-- Plain split on the `'.'` character (every piece kept, in order). -/
def splitDot : Str → List Str
  | [] => [[]]
  | c :: rest =>
    if c = 46 then [] :: splitDot rest
    else
      match splitDot rest with
      | [] => [[c]]
      | p :: ps => (c :: p) :: ps

/-- `str::split_terminator('.')`: like the plain split, except that a final
empty piece (produced by a trailing terminator, or by empty input) is
dropped. -/
def splitTerminatorDot (s : Str) : List Str :=
  let parts := splitDot s
  if parts.getLast? = some [] then parts.dropLast else parts

/-- UTF-8 byte length of one scalar value (`char::len_utf8`). -/
def utf8Size (c : Nat) : Nat :=
  if c < 128 then 1 else if c < 2048 then 2 else if c < 65536 then 3 else 4

/-- `str::len`: length in UTF-8 bytes. -/
def utf8Len (s : Str) : Nat := (s.map utf8Size).sum

/-- Byte slice `&s[..n]`: `none` models the Rust panic raised when byte
index `n` is out of range or not on a character boundary. -/
def byteTake : Str → Nat → Option Str
  | _, 0 => some []
  | [], _ + 1 => none
  | c :: rest, n + 1 =>
    if utf8Size c ≤ n + 1 then
      match byteTake rest (n + 1 - utf8Size c) with
      | none => none
      | some t => some (c :: t)
    else none

/-- Decimal digits of a natural number, as scalar values. -/
def natDigits (n : Nat) : Str := (Nat.toDigits 10 n).map Char.toNat

/-- `CompilationStatus`. -/
inductive CompilationStatus where
  | Pass
  | Fail
deriving DecidableEq, Repr

/-- `CompilationError`: the structured error enum of the compiler. -/
inductive CompilationError where
  | EmptyInput
  | NoClauses
  | IntentNormalizationFailed (reason : Str)
  | ModalLanguageDetected (clause_index : Nat) (clause : Str) (modal_word : Str)
  | MissingActionVerb (clause_index : Nat) (clause : Str)
  | AmbiguousMultiAction (clause_index : Nat) (clause : Str)
  | MissingPrincipal (clause_index : Nat) (clause : Str)
  | MissingMeasurementUnit (clause_index : Nat) (clause : Str)
  | MissingCostSubject (clause_index : Nat) (clause : Str)
  | InternalError (context : Str)
deriving DecidableEq, Repr

/-- `Principal`: the closed set of recognised principals. -/
inductive Principal where
  | System
  | User
  | Service
deriving DecidableEq, Repr

/-- `Principal::as_str`. -/
def Principal.as_str : Principal → Str
  | .System => str ("SYSTEM")
  | .User => str ("USER")
  | .Service => str ("SERVICE")

/-- `Principal::from_clause`: uppercases the clause, splits on whitespace,
strips non-alphanumeric boundary characters from each token, and returns
the principal of the first token exactly equal to a canonical name. -/
def Principal.from_clause (clause : Str) : Option Principal :=
  let tokens := (splitWs (toUpper clause)).map trimNonAlnum
  tokens.findSome? fun token =>
    if token = str ("SYSTEM") then some Principal.System
    else if token = str ("USER") then some Principal.User
    else if token = str ("SERVICE") then some Principal.Service
    else none

/-- `MeasurementUnit`: the closed set of recognised measurement units. -/
inductive MeasurementUnit where
  | Usd
  | Eur
  | Gbp
  | Tokens
  | Bytes
  | Requests
  | Hours
deriving DecidableEq, Repr

/-- The currency-glyph reject list of `MeasurementUnit::from_clause`: the
four glyphs and the three mis-decoded byte sequences listed in the source. -/
def CURRENCY_GLYPHS : List Str :=
  [str ("$"), str ("€"), str ("£"), str ("¥"), str ("â‚¬"), str ("Â£"), str ("Â¥")]

/-- `MeasurementUnit::from_clause`: rejects any clause containing a currency
glyph, otherwise returns the first unit keyword contained (case-insensitively)
in the clause, in the fixed priority order of the source. -/
def MeasurementUnit.from_clause (clause : Str) : Option MeasurementUnit :=
  let clause_lower := toLower clause
  if CURRENCY_GLYPHS.any (fun g => isSubstr g clause) then none
  else if isSubstr (str ("usd")) clause_lower then some MeasurementUnit.Usd
  else if isSubstr (str ("eur")) clause_lower then some MeasurementUnit.Eur
  else if isSubstr (str ("gbp")) clause_lower then some MeasurementUnit.Gbp
  else if isSubstr (str ("tokens")) clause_lower then some MeasurementUnit.Tokens
  else if isSubstr (str ("bytes")) clause_lower then some MeasurementUnit.Bytes
  else if isSubstr (str ("requests")) clause_lower then some MeasurementUnit.Requests
  else if isSubstr (str ("hours")) clause_lower then some MeasurementUnit.Hours
  else none

/-- `MODAL_WORDS`. -/
def MODAL_WORDS : List Str :=
  [str ("should"), str ("may"), str ("where reasonable"), str ("as appropriate"),
   str ("could"), str ("might"), str ("possibly")]

/-- `ACTION_VERBS`. -/
def ACTION_VERBS : List Str :=
  [str ("must"), str ("shall"), str ("require"), str ("log"), str ("audit"),
   str ("record"), str ("deny"), str ("allow"), str ("enforce"), str ("track"),
   str ("exceed")]

/-- `COST_INDICATORS`. -/
def COST_INDICATORS : List Str :=
  [str ("cost"), str ("spend"), str ("usage"), str ("quota"),
   str ("resource consumption"), str ("externality"), str ("budget"), str ("expense")]

/-- `IntentNormalization`. -/
structure IntentNormalization where
  clauses : List Str
  assumptions : List Str
  exclusions : List Str
deriving DecidableEq, Repr

/-- `DIOInvariant`. -/
structure DIOInvariant where
  id : Str
  description : Str
  clause_index : Nat
  failure_signal : Str
deriving DecidableEq, Repr

/-- `ZTAuthority`. -/
structure ZTAuthority where
  id : Str
  principal : Principal
  scope : Str
  clause_index : Nat
  delegation_rules : List Str
  revocation_triggers : List Str
deriving DecidableEq, Repr

/-- `ICAECostConstraint`.  The `ceiling` field is `Option Float` as in the
source; the compiler never constructs a `some` value for it. -/
structure ICAECostConstraint where
  id : Str
  subject : Str
  measurement_unit : MeasurementUnit
  clause_index : Nat
  ceiling : Option Float
  externalities : List Str
deriving Repr

/-- `TraceabilityEntry`. -/
structure TraceabilityEntry where
  clause_id : Str
  clause_index : Nat
  clause_text : Str
  invariant_ids : List Str
  authority_ids : List Str
  cost_ids : List Str
deriving DecidableEq, Repr

/-- `CompilationResult`.  The deprecated `failures` field (display-string
copies of `errors`, kept in the source only for backward compatibility) is
not modelled. -/
structure CompilationResult where
  intent_normalization : IntentNormalization
  dio_invariants : List DIOInvariant
  zt_authority_graph : List ZTAuthority
  icae_constraints : List ICAECostConstraint
  traceability_map : List TraceabilityEntry
  verdict : CompilationStatus
  errors : List CompilationError
deriving Repr

/-- `CompilationResult::is_success`. -/
def CompilationResult.is_success (r : CompilationResult) : Bool :=
  r.verdict = CompilationStatus.Pass

/-- `PolicyCompiler::truncate_clause`: byte-based truncation with an
ellipsis appended; `none` models the panic raised by the byte slice
`&clause[..max_len]` when `max_len` falls inside a multi-byte character. -/
def truncate_clause (clause : Str) (max_len : Nat) : Option Str :=
  if utf8Len clause ≤ max_len then some clause
  else
    match byteTake clause max_len with
    | none => none
    | some t => some (t ++ str ("..."))

/-- `PolicyCompiler::parse_clauses`: split on `'.'` terminators, trim each
piece, drop empty pieces. -/
def parse_clauses (text : Str) : List Str :=
  ((splitTerminatorDot text).map rustTrim).filter fun s => !s.isEmpty

/-- Inner loop of the modal-language pass: the first word of `MODAL_WORDS`
(in list order) contained in the lowercased clause. -/
def findModalWord (clause : Str) : Option Str :=
  MODAL_WORDS.find? fun w => isSubstr w (toLower clause)

/-- Modal-language pass of `normalize_intent`: scans all clauses in order
(`i` is the index of the first clause of the remaining list). -/
def modalPass : Nat → List Str → Option CompilationError
  | _, [] => none
  | i, c :: rest =>
    match findModalWord c with
    | some w => some (.ModalLanguageDetected i c w)
    | none => modalPass (i + 1) rest

/-- Action-verb pass of `normalize_intent`. -/
def verbPass : Nat → List Str → Option CompilationError
  | _, [] => none
  | i, c :: rest =>
    if ACTION_VERBS.any (fun v => isSubstr v (toLower c)) then verbPass (i + 1) rest
    else some (.MissingActionVerb i c)

/-- Multi-action pass of `normalize_intent`. -/
def multiActionPass : Nat → List Str → Option CompilationError
  | _, [] => none
  | i, c :: rest =>
    if (isSubstr (str (" and ")) (toLower c) || isSubstr (str (" or ")) (toLower c))
        && !isSubstr (str ("then")) (toLower c)
        && !isSubstr (str ("before")) (toLower c)
        && !isSubstr (str ("after")) (toLower c)
    then some (.AmbiguousMultiAction i c)
    else multiActionPass (i + 1) rest

/-- `PolicyCompiler::normalize_intent`: the three validation passes in
source order, then extraction of the assumption and exclusion sub-lists.
The `&mut Vec` out-parameters of the source, which start empty and are
cleared before being filled, are modelled by the returned record. -/
def normalize_intent (clauses : List Str) :
    Except CompilationError IntentNormalization :=
  match modalPass 0 clauses with
  | some e => .error e
  | none =>
    match verbPass 0 clauses with
    | some e => .error e
    | none =>
      match multiActionPass 0 clauses with
      | some e => .error e
      | none =>
        .ok { clauses := clauses
              assumptions := clauses.filter fun c =>
                isSubstr (str ("assumes")) (toLower c) || isSubstr (str ("assuming")) (toLower c)
              exclusions := clauses.filter fun c =>
                isSubstr (str ("except")) (toLower c) || isSubstr (str ("exclude")) (toLower c)
                  || isSubstr (str ("unless")) (toLower c) }

/-- Identifier `dio_<i>`. -/
def strDio (i : Nat) : Str := str ("dio_") ++ natDigits i

/-- Identifier `VIOLATION_DIO_<i>`. -/
def strViol (i : Nat) : Str := str ("VIOLATION_DIO_") ++ natDigits i

/-- Identifier `zt_auth_<i>`. -/
def strZtAuth (i : Nat) : Str := str ("zt_auth_") ++ natDigits i

/-- Identifier `scope_<i>`. -/
def strScope (i : Nat) : Str := str ("scope_") ++ natDigits i

/-- Identifier `icae_<i>`. -/
def strIcae (i : Nat) : Str := str ("icae_") ++ natDigits i

/-- Identifier `clause_<i>`. -/
def strClause (i : Nat) : Str := str ("clause_") ++ natDigits i

/-- Worker of `compile_dio_invariants` (clause indices from `i`).  The
`BTreeMap<usize, Vec<_>>` keyed by the dense indices `0..n` is modelled
positionally, as the list of per-clause artifact lists. -/
def dioAux : Nat → List Str → Option (List (List DIOInvariant))
  | _, [] => some []
  | i, clause :: rest =>
    match truncate_clause clause 50 with
    | none => none
    | some t =>
      match dioAux (i + 1) rest with
      | none => none
      | some tail =>
        some ([{ id := strDio i
                 description := str ("Enforce policy clause: ") ++ t
                 clause_index := i
                 failure_signal := strViol i }] :: tail)

/-- `PolicyCompiler::compile_dio_invariants`. -/
def compile_dio_invariants (clauses : List Str) : Option (List (List DIOInvariant)) :=
  dioAux 0 clauses

/-- Worker of `compile_zt_authority` (clause indices from `i`): per-clause
authority lists alongside the aggregated error list. -/
def ztAux : Nat → List Str → Option (List (List ZTAuthority) × List CompilationError)
  | _, [] => some ([], [])
  | i, clause :: rest =>
    match Principal.from_clause clause with
    | some principal =>
      match truncate_clause clause 30 with
      | none => none
      | some t =>
        match ztAux (i + 1) rest with
        | none => none
        | some (tails, errs) =>
          some ([{ id := strZtAuth i
                   principal := principal
                   scope := strScope i
                   clause_index := i
                   delegation_rules :=
                     [str ("Delegation requires explicit ") ++ principal.as_str
                        ++ str (" approval for: ") ++ t]
                   revocation_triggers :=
                     [str ("Revoke on policy change affecting: ") ++ t] }] :: tails,
                errs)
    | none =>
      match ztAux (i + 1) rest with
      | none => none
      | some (tails, errs) =>
        some ([] :: tails, .MissingPrincipal i clause :: errs)

/-- `PolicyCompiler::compile_zt_authority`. -/
def compile_zt_authority (clauses : List Str) :
    Option (List (List ZTAuthority) × List CompilationError) :=
  ztAux 0 clauses

/-- The local `stop_words` constant of `PolicyCompiler::extract_subject`. -/
def stop_words : List Str :=
  [str ("cost"), str ("spend"), str ("usage"), str ("quota"), str ("the"),
   str ("a"), str ("an"), str ("of"), str ("for"), str ("per"), str ("must"),
   str ("shall"), str ("cannot"), str ("exceed"), str ("all"), str ("no"),
   str ("be"), str ("by"), str ("system"), str ("user"), str ("service")]

/-- `PolicyCompiler::extract_subject`: the first whitespace token which,
after stripping non-alphanumeric boundary characters, has byte length
greater than 3 and whose lowercase form is not a stop word. -/
def extract_subject (clause : Str) : Option Str :=
  (splitWs clause).findSome? fun word =>
    let clean_word := trimNonAlnum word
    if utf8Len clean_word > 3 && !stop_words.contains (toLower clean_word) then
      some clean_word
    else none

/-- The inline cost-indicator test of `compile_icae_constraints`. -/
def has_cost_mention (clause : Str) : Bool :=
  COST_INDICATORS.any fun ind => isSubstr ind (toLower clause)

/-- Worker of `compile_icae_constraints` (clause indices from `i`). -/
def icaeAux : Nat → List Str → Option (List (List ICAECostConstraint) × List CompilationError)
  | _, [] => some ([], [])
  | i, clause :: rest =>
    if has_cost_mention clause then
      match extract_subject clause with
      | none =>
        match icaeAux (i + 1) rest with
        | none => none
        | some (tails, errs) =>
          some ([] :: tails, .MissingCostSubject i clause :: errs)
      | some subject =>
        match MeasurementUnit.from_clause clause with
        | none =>
          match icaeAux (i + 1) rest with
          | none => none
          | some (tails, errs) =>
            some ([] :: tails, .MissingMeasurementUnit i clause :: errs)
        | some unit =>
          match truncate_clause clause 30 with
          | none => none
          | some t =>
            match icaeAux (i + 1) rest with
            | none => none
            | some (tails, errs) =>
              some ([{ id := strIcae i
                       subject := subject
                       measurement_unit := unit
                       clause_index := i
                       ceiling := none
                       externalities := [str ("External cost from: ") ++ t] }] :: tails,
                    errs)
    else
      match icaeAux (i + 1) rest with
      | none => none
      | some (tails, errs) => some ([] :: tails, errs)

/-- `PolicyCompiler::compile_icae_constraints`. -/
def compile_icae_constraints (clauses : List Str) :
    Option (List (List ICAECostConstraint) × List CompilationError) :=
  icaeAux 0 clauses

/-- `PolicyCompiler::build_traceability_map`. -/
def build_traceability_map (clauses : List Str)
    (dio_by_clause : List (List DIOInvariant))
    (auth_by_clause : List (List ZTAuthority))
    (cost_by_clause : List (List ICAECostConstraint)) : List TraceabilityEntry :=
  (List.range clauses.length).map fun i =>
    { clause_id := strClause i
      clause_index := i
      clause_text := (clauses.get? i).getD []
      invariant_ids := ((dio_by_clause.get? i).getD []).map (·.id)
      authority_ids := ((auth_by_clause.get? i).getD []).map (·.id)
      cost_ids := ((cost_by_clause.get? i).getD []).map (·.id) }

/-- `PolicyCompiler::fail_with_errors`: a fully reset `Fail` result. -/
def fail_with_errors (errors : List CompilationError) : CompilationResult :=
  { intent_normalization := { clauses := [], assumptions := [], exclusions := [] }
    dio_invariants := []
    zt_authority_graph := []
    icae_constraints := []
    traceability_map := []
    verdict := CompilationStatus.Fail
    errors := errors }

/-- `PolicyCompiler::fail_with_error`. -/
def fail_with_error (error : CompilationError) : CompilationResult :=
  fail_with_errors [error]

/-- The clause sequence a given raw input is compiled under. -/
def clausesOf (policy_input : Str) : List Str :=
  parse_clauses (rustTrim policy_input)

/-- `PolicyCompiler::compile`: the full pipeline.  `none` models a panic
(the only panic source is `truncate_clause`); every normal return is
`some` of the assembled `CompilationResult`. -/
def compile (policy_input : Str) : Option CompilationResult :=
  if (rustTrim policy_input).isEmpty then some (fail_with_error .EmptyInput)
  else if (clausesOf policy_input).isEmpty then some (fail_with_error .NoClauses)
  else
    match normalize_intent (clausesOf policy_input) with
    | .error e => some (fail_with_error e)
    | .ok norm =>
      match compile_dio_invariants (clausesOf policy_input) with
      | none => none
      | some dio_by_clause =>
        match compile_zt_authority (clausesOf policy_input) with
        | none => none
        | some (auth_by_clause, auth_errors) =>
          if auth_errors.isEmpty then
            match compile_icae_constraints (clausesOf policy_input) with
            | none => none
            | some (cost_by_clause, cost_errors) =>
              if cost_errors.isEmpty then
                some { intent_normalization := norm
                       dio_invariants := dio_by_clause.flatten
                       zt_authority_graph := auth_by_clause.flatten
                       icae_constraints := cost_by_clause.flatten
                       traceability_map :=
                         build_traceability_map (clausesOf policy_input)
                           dio_by_clause auth_by_clause cost_by_clause
                       verdict := CompilationStatus.Pass
                       errors := [] }
              else some (fail_with_errors cost_errors)
          else some (fail_with_errors auth_errors)

/-! Claim-side definitions: restatements taken from the specification's
wording, to be compared with the embedded code by the theorems below. -/

/-- Segmentation as the specification words it: split the (trimmed) text on
`'.'`, trim each piece, keep the non-empty pieces in source order. -/
def segmentsSpec (text : Str) : List Str :=
  ((splitDot text).map rustTrim).filter fun s => !s.isEmpty

/-- One `MissingPrincipal{clause_index, clause}` entry per principal-less
clause, in ascending clause-index order, covering all clauses (indices from
`i`). -/
def missingPrincipalErrorsFrom : Nat → List Str → List CompilationError
  | _, [] => []
  | i, c :: rest =>
    match Principal.from_clause c with
    | none => .MissingPrincipal i c :: missingPrincipalErrorsFrom (i + 1) rest
    | some _ => missingPrincipalErrorsFrom (i + 1) rest

/-- Subject extraction as the claim words it, amended to the byte length the
code uses: the first whitespace token (stripped of non-alphanumeric boundary
characters) whose UTF-8 byte length exceeds 3 and whose lowercase form is
outside the stop-word list. -/
def subjectByByteLength (clause : Str) : Option Str :=
  (((splitWs clause).map trimNonAlnum).filter fun t =>
    utf8Len t > 3 && !stop_words.contains (toLower t)).head?

/-- Subject extraction exactly as the claim words it: the first whitespace
token (stripped of non-alphanumeric boundary characters) whose length
exceeds 3 characters (code points) and whose lowercase form is outside the
stop-word list. -/
def subjectByCharLength (clause : Str) : Option Str :=
  (((splitWs clause).map trimNonAlnum).filter fun t =>
    t.length > 3 && !stop_words.contains (toLower t)).head?

/-- The error a clause contributes during ICAE cost compilation, per the
(byte-length amended) claim: nothing for a clause without a cost indicator,
`MissingCostSubject` for a cost-bearing clause without a subject,
`MissingMeasurementUnit` for one with a subject but no unit. -/
def icaeClauseError (i : Nat) (c : Str) : Option CompilationError :=
  if has_cost_mention c then
    match subjectByByteLength c with
    | none => some (.MissingCostSubject i c)
    | some _ =>
      match MeasurementUnit.from_clause c with
      | none => some (.MissingMeasurementUnit i c)
      | some _ => none
  else none

/-- The aggregated ICAE error list over all clauses (indices from `i`). -/
def icaeErrorsFrom : Nat → List Str → List CompilationError
  | _, [] => []
  | i, c :: rest =>
    match icaeClauseError i c with
    | some e => e :: icaeErrorsFrom (i + 1) rest
    | none => icaeErrorsFrom (i + 1) rest

/-- What the ICAE stage must produce for clause `c` at index `i`, per the
claim: exactly one constraint with identifier `icae_<i>` and unset ceiling
iff the clause is cost-bearing and both subject extraction and unit
resolution succeed; otherwise no artifact. -/
def icaeClauseSpec (i : Nat) (c : Str) (entry : List ICAECostConstraint) : Prop :=
  if has_cost_mention c then
    match subjectByByteLength c, MeasurementUnit.from_clause c with
    | some s, some u =>
      ∃ ext, entry = [{ id := strIcae i, subject := s, measurement_unit := u,
                        clause_index := i, ceiling := none, externalities := ext }]
    | _, _ => entry = []
  else entry = []

/-- Tokenization as the claim words it: split on whitespace, strip
non-alphanumeric boundary characters from each token, uppercase. -/
def claimTokens (clause : Str) : List Str :=
  (splitWs clause).map fun t => toUpper (trimNonAlnum t)

/-- The principal carried by a canonical name. -/
def principalOfName (t : Str) : Option Principal :=
  if t = str ("SYSTEM") then some Principal.System
  else if t = str ("USER") then some Principal.User
  else if t = str ("SERVICE") then some Principal.Service
  else none

/-- Principal resolution as the claim words it: the principal of the first
token exactly equal to `SYSTEM`, `USER`, or `SERVICE` (that is, the first
token on which the canonical-name table yields a principal). -/
def principalByTokens (clause : Str) : Option Principal :=
  (claimTokens clause).findSome? principalOfName

/-- The fixed unit-keyword priority order of the claim. -/
def UNIT_PRIORITY : List (Str × MeasurementUnit) :=
  [(str ("usd"), .Usd), (str ("eur"), .Eur), (str ("gbp"), .Gbp),
   (str ("tokens"), .Tokens), (str ("bytes"), .Bytes),
   (str ("requests"), .Requests), (str ("hours"), .Hours)]

/-- The error variants the compiler may surface, per the claim: any variant
except `IntentNormalizationFailed` and `InternalError`. -/
def surfacedShape (e : CompilationError) : Prop :=
  e = .EmptyInput ∨ e = .NoClauses ∨
  (∃ i c w, e = .ModalLanguageDetected i c w) ∨
  (∃ i c, e = .MissingActionVerb i c) ∨
  (∃ i c, e = .AmbiguousMultiAction i c) ∨
  (∃ i c, e = .MissingPrincipal i c) ∨
  (∃ i c, e = .MissingMeasurementUnit i c) ∨
  (∃ i c, e = .MissingCostSubject i c)

/-! Concrete inputs and expected results used by the witnesses. -/

/-- Two valid clauses, neither naming a principal. -/
def w3in : Str := str ("Log all actions. Audit records.")

/-- Expected result for `w3in`: both failures aggregated. -/
def w3res : CompilationResult :=
  fail_with_errors
    [.MissingPrincipal 0 (str ("Log all actions")),
     .MissingPrincipal 1 (str ("Audit records"))]

/-- First clause lacks an action verb, second contains the modal `may`. -/
def w4in : Str := str ("Nothing here. Logging may happen.")

/-- Expected result for `w4in`: the modal violation wins. -/
def w4res : CompilationResult :=
  fail_with_error (.ModalLanguageDetected 1 (str ("Logging may happen")) (str ("may")))

/-- A single cost-bearing clause with subject `stay` and unit `usd`. -/
def w5cl : List Str := [str ("Spend must stay below 100 usd by USER")]

/-- Expected ICAE stage output for `w5cl`. -/
def w5res : List (List ICAECostConstraint) × List CompilationError :=
  ([[{ id := str ("icae_0")
       subject := str ("stay")
       measurement_unit := .Usd
       clause_index := 0
       ceiling := none
       externalities := [str ("External cost from: Spend must stay below 100 usd ...")] }]],
   [])

/-- The cost-bearing clause separating byte length from character length in
subject extraction: its only non-stop-word token of more than 3 bytes,
`éé`, has just 2 characters. -/
def w5cex : Str := str ("Cost of éé must not exceed usd by USER")

/-- The specification's leading example: a single fully valid clause. -/
def w8in : Str := str ("All actions must be logged by SYSTEM.")

/-- Expected (passing) result for `w8in`. -/
def w8res : CompilationResult :=
  { intent_normalization :=
      { clauses := [str ("All actions must be logged by SYSTEM")]
        assumptions := []
        exclusions := [] }
    dio_invariants :=
      [{ id := str ("dio_0")
         description := str ("Enforce policy clause: All actions must be logged by SYSTEM")
         clause_index := 0
         failure_signal := str ("VIOLATION_DIO_0") }]
    zt_authority_graph :=
      [{ id := str ("zt_auth_0")
         principal := .System
         scope := str ("scope_0")
         clause_index := 0
         delegation_rules :=
           [str ("Delegation requires explicit SYSTEM approval for: All actions must be logged by ...")]
         revocation_triggers :=
           [str ("Revoke on policy change affecting: All actions must be logged by ...")] }]
    icae_constraints := []
    traceability_map :=
      [{ clause_id := str ("clause_0")
         clause_index := 0
         clause_text := str ("All actions must be logged by SYSTEM")
         invariant_ids := [str ("dio_0")]
         authority_ids := [str ("zt_auth_0")]
         cost_ids := [] }]
    verdict := .Pass
    errors := [] }

/-- A clause whose byte-50 boundary falls inside the two-byte character
`é`: 49 ASCII bytes (`must ` and 44 `a`s) followed by `é z`. -/
def w1in : Str := str ("must aaaaaaaaaaaaaaaaaaaaaaaaaaaaaaaaaaaaaaaaaaaaé z")

/-- The mixed-validity input of the specification's measurement-unit
example: a valid logging clause followed by a `$`-amount cost clause. -/
def w6in : Str :=
  str ("All actions must be logged by SYSTEM. Cost of logging cannot exceed $1000 per month by SERVICE.")

/-! Helper lemmas. -/

theorem parse_clauses_nil : parse_clauses [] = [] := rfl

theorem clausesOf_eq_nil_of_trim {s : Str} (h : rustTrim s = []) :
    clausesOf s = [] := by
  unfold clausesOf
  rw [h]
  rfl

/-- The worker of `compile_zt_authority` aggregates exactly the
`MissingPrincipal` errors, in ascending clause order. -/
theorem ztAux_snd :
    ∀ (cl : List Str) (i : Nat) (ll : List (List ZTAuthority)) (errs : List CompilationError),
      ztAux i cl = some (ll, errs) → errs = missingPrincipalErrorsFrom i cl := by
  intro cl
  induction cl with
  | nil =>
    intro i ll errs h
    simp only [ztAux] at h
    simp only [missingPrincipalErrorsFrom]
    exact (Prod.mk.injEq _ _ _ _ ▸ Option.some.inj h).2.symm
  | cons c rest ih =>
    intro i ll errs h
    simp only [ztAux] at h
    simp only [missingPrincipalErrorsFrom]
    cases hp : Principal.from_clause c with
    | some principal =>
      rw [hp] at h
      cases ht : truncate_clause c 30 with
      | none => rw [ht] at h; exact Option.noConfusion h
      | some t =>
        rw [ht] at h
        cases hz : ztAux (i + 1) rest with
        | none => rw [hz] at h; exact Option.noConfusion h
        | some p =>
          rw [hz] at h
          obtain ⟨tails, errs'⟩ := p
          have := Option.some.inj h
          have h2 := (Prod.mk.injEq _ _ _ _ ▸ this).2
          rw [← h2]
          exact ih (i + 1) tails errs' hz
    | none =>
      rw [hp] at h
      cases hz : ztAux (i + 1) rest with
      | none => rw [hz] at h; exact Option.noConfusion h
      | some p =>
        rw [hz] at h
        obtain ⟨tails, errs'⟩ := p
        have := Option.some.inj h
        have h2 := (Prod.mk.injEq _ _ _ _ ▸ this).2
        rw [← h2]
        exact congrArg _ (ih (i + 1) tails errs' hz)

/-- `extract_subject` computes exactly the claim-side byte-length subject. -/
theorem extract_subject_eq (clause : Str) :
    extract_subject clause = subjectByByteLength clause := by
  unfold extract_subject subjectByByteLength
  generalize splitWs clause = l
  induction l with
  | nil => rfl
  | cons w rest ih =>
    cases hp : (utf8Len (trimNonAlnum w) > 3
        && !stop_words.contains (toLower (trimNonAlnum w))) with
    | true =>
      simp only [List.findSome?_cons, List.map_cons, List.filter_cons, hp]
      simp
    | false =>
      simp only [List.findSome?_cons, List.map_cons, List.filter_cons, hp]
      simpa using ih

/-- The worker of `compile_icae_constraints` aggregates exactly the
claim-side per-clause cost errors, in ascending clause order. -/
theorem icaeAux_snd :
    ∀ (cl : List Str) (i : Nat) (ll : List (List ICAECostConstraint)) (errs : List CompilationError),
      icaeAux i cl = some (ll, errs) → errs = icaeErrorsFrom i cl := by
  intro cl
  induction cl with
  | nil =>
    intro i ll errs h
    simp only [icaeAux] at h
    simp only [icaeErrorsFrom]
    exact (Prod.mk.injEq _ _ _ _ ▸ Option.some.inj h).2.symm
  | cons c rest ih =>
    intro i ll errs h
    simp only [icaeAux] at h
    simp only [icaeErrorsFrom, icaeClauseError]
    by_cases hc : has_cost_mention c = true
    · rw [if_pos hc] at h
      rw [if_pos hc]
      cases hs : extract_subject c with
      | none =>
        rw [hs] at h
        rw [← extract_subject_eq, hs]
        cases hr : icaeAux (i + 1) rest with
        | none => rw [hr] at h; exact Option.noConfusion h
        | some p =>
          rw [hr] at h
          obtain ⟨tails, errs'⟩ := p
          have h2 := (Prod.mk.injEq _ _ _ _ ▸ Option.some.inj h).2
          rw [← h2]
          exact congrArg _ (ih (i + 1) tails errs' hr)
      | some subject =>
        rw [hs] at h
        rw [← extract_subject_eq, hs]
        cases hu : MeasurementUnit.from_clause c with
        | none =>
          rw [hu] at h
          cases hr : icaeAux (i + 1) rest with
          | none => rw [hr] at h; exact Option.noConfusion h
          | some p =>
            rw [hr] at h
            obtain ⟨tails, errs'⟩ := p
            have h2 := (Prod.mk.injEq _ _ _ _ ▸ Option.some.inj h).2
            rw [← h2]
            exact congrArg _ (ih (i + 1) tails errs' hr)
        | some unit =>
          rw [hu] at h
          cases ht : truncate_clause c 30 with
          | none => rw [ht] at h; exact Option.noConfusion h
          | some t =>
            rw [ht] at h
            cases hr : icaeAux (i + 1) rest with
            | none => rw [hr] at h; exact Option.noConfusion h
            | some p =>
              rw [hr] at h
              obtain ⟨tails, errs'⟩ := p
              have h2 := (Prod.mk.injEq _ _ _ _ ▸ Option.some.inj h).2
              rw [← h2]
              exact ih (i + 1) tails errs' hr
    · rw [if_neg hc] at h
      rw [if_neg hc]
      cases hr : icaeAux (i + 1) rest with
      | none => rw [hr] at h; exact Option.noConfusion h
      | some p =>
        rw [hr] at h
        obtain ⟨tails, errs'⟩ := p
        have h2 := (Prod.mk.injEq _ _ _ _ ▸ Option.some.inj h).2
        rw [← h2]
        exact ih (i + 1) tails errs' hr

/-- Every aggregated ZT-authority error is a `MissingPrincipal`. -/
theorem mem_missingPrincipalErrorsFrom :
    ∀ (cl : List Str) (i : Nat) (e : CompilationError),
      e ∈ missingPrincipalErrorsFrom i cl → ∃ j c, e = .MissingPrincipal j c := by
  intro cl
  induction cl with
  | nil => intro i e h; simp [missingPrincipalErrorsFrom] at h
  | cons c rest ih =>
    intro i e h
    simp only [missingPrincipalErrorsFrom] at h
    cases hp : Principal.from_clause c with
    | none =>
      rw [hp] at h
      rcases List.mem_cons.mp h with h1 | h2
      · exact ⟨i, c, h1⟩
      · exact ih (i + 1) e h2
    | some p =>
      rw [hp] at h
      exact ih (i + 1) e h

/-- A principal-less clause forces a non-empty ZT-authority error list. -/
theorem missingPrincipalErrorsFrom_ne_nil :
    ∀ (cl : List Str) (i : Nat) (c : Str),
      c ∈ cl → Principal.from_clause c = none →
      missingPrincipalErrorsFrom i cl ≠ [] := by
  intro cl
  induction cl with
  | nil => intro i c h; simp at h
  | cons d rest ih =>
    intro i c hmem hnone
    simp only [missingPrincipalErrorsFrom]
    rcases List.mem_cons.mp hmem with h1 | h2
    · subst h1
      rw [hnone]
      exact List.cons_ne_nil _ _
    · cases hp : Principal.from_clause d with
      | none => exact List.cons_ne_nil _ _
      | some p => exact ih (i + 1) c h2 hnone

/-- Every per-clause ICAE error is a `MissingCostSubject` or a
`MissingMeasurementUnit`. -/
theorem icaeClauseError_shape (i : Nat) (c : Str) (e : CompilationError)
    (h : icaeClauseError i c = some e) :
    (∃ j d, e = .MissingCostSubject j d) ∨ (∃ j d, e = .MissingMeasurementUnit j d) := by
  unfold icaeClauseError at h
  by_cases hc : has_cost_mention c = true
  · rw [if_pos hc] at h
    cases hs : subjectByByteLength c with
    | none =>
      rw [hs] at h
      exact Or.inl ⟨i, c, (Option.some.inj h).symm⟩
    | some s =>
      rw [hs] at h
      cases hu : MeasurementUnit.from_clause c with
      | none =>
        rw [hu] at h
        exact Or.inr ⟨i, c, (Option.some.inj h).symm⟩
      | some u => rw [hu] at h; exact Option.noConfusion h
  · rw [if_neg hc] at h
    exact Option.noConfusion h

/-- Every aggregated ICAE error is a `MissingCostSubject` or a
`MissingMeasurementUnit`. -/
theorem mem_icaeErrorsFrom :
    ∀ (cl : List Str) (i : Nat) (e : CompilationError),
      e ∈ icaeErrorsFrom i cl →
      (∃ j d, e = .MissingCostSubject j d) ∨ (∃ j d, e = .MissingMeasurementUnit j d) := by
  intro cl
  induction cl with
  | nil => intro i e h; simp [icaeErrorsFrom] at h
  | cons c rest ih =>
    intro i e h
    simp only [icaeErrorsFrom] at h
    cases hc : icaeClauseError i c with
    | some e' =>
      rw [hc] at h
      rcases List.mem_cons.mp h with h1 | h2
      · exact h1 ▸ icaeClauseError_shape i c e' hc
      · exact ih (i + 1) e h2
    | none =>
      rw [hc] at h
      exact ih (i + 1) e h

/-- A modal-pass error is always a `ModalLanguageDetected`. -/
theorem modalPass_shape :
    ∀ (cl : List Str) (i : Nat) (e : CompilationError),
      modalPass i cl = some e → ∃ j c w, e = .ModalLanguageDetected j c w := by
  intro cl
  induction cl with
  | nil => intro i e h; exact Option.noConfusion h
  | cons c rest ih =>
    intro i e h
    simp only [modalPass] at h
    cases hm : findModalWord c with
    | some w => rw [hm] at h; exact ⟨i, c, w, (Option.some.inj h).symm⟩
    | none => rw [hm] at h; exact ih (i + 1) e h

/-- A verb-pass error is always a `MissingActionVerb`. -/
theorem verbPass_shape :
    ∀ (cl : List Str) (i : Nat) (e : CompilationError),
      verbPass i cl = some e → ∃ j c, e = .MissingActionVerb j c := by
  intro cl
  induction cl with
  | nil => intro i e h; exact Option.noConfusion h
  | cons c rest ih =>
    intro i e h
    simp only [verbPass] at h
    by_cases hv : (ACTION_VERBS.any fun v => isSubstr v (toLower c)) = true
    · rw [if_pos hv] at h; exact ih (i + 1) e h
    · rw [if_neg hv] at h; exact ⟨i, c, (Option.some.inj h).symm⟩

/-- A multi-action-pass error is always an `AmbiguousMultiAction`. -/
theorem multiActionPass_shape :
    ∀ (cl : List Str) (i : Nat) (e : CompilationError),
      multiActionPass i cl = some e → ∃ j c, e = .AmbiguousMultiAction j c := by
  intro cl
  induction cl with
  | nil => intro i e h; exact Option.noConfusion h
  | cons c rest ih =>
    intro i e h
    simp only [multiActionPass] at h
    by_cases hv : ((isSubstr (str (" and ")) (toLower c) || isSubstr (str (" or ")) (toLower c))
        && !isSubstr (str ("then")) (toLower c)
        && !isSubstr (str ("before")) (toLower c)
        && !isSubstr (str ("after")) (toLower c)) = true
    · rw [if_pos hv] at h; exact ⟨i, c, (Option.some.inj h).symm⟩
    · rw [if_neg hv] at h; exact ih (i + 1) e h

/-- A normalization error is always one of the three pass errors. -/
theorem normalize_intent_error_shape (cl : List Str) (e : CompilationError)
    (h : normalize_intent cl = .error e) :
    (∃ j c w, e = .ModalLanguageDetected j c w) ∨
    (∃ j c, e = .MissingActionVerb j c) ∨
    (∃ j c, e = .AmbiguousMultiAction j c) := by
  unfold normalize_intent at h
  cases hm : modalPass 0 cl with
  | some e' =>
    rw [hm] at h
    exact Or.inl ((Except.error.inj h) ▸ modalPass_shape cl 0 e' hm)
  | none =>
    rw [hm] at h
    cases hv : verbPass 0 cl with
    | some e' =>
      rw [hv] at h
      exact Or.inr (Or.inl ((Except.error.inj h) ▸ verbPass_shape cl 0 e' hv))
    | none =>
      rw [hv] at h
      cases ha : multiActionPass 0 cl with
      | some e' =>
        rw [ha] at h
        exact Or.inr (Or.inr ((Except.error.inj h) ▸ multiActionPass_shape cl 0 e' ha))
      | none => rw [ha] at h; exact Except.noConfusion h

/-- Complete case analysis of a normal (non-panicking) run of `compile`:
every returned result arises from one of the two structural checks, one of
the three stages that can fail, or the passing branch. -/
theorem compile_inversion (s : Str) (r : CompilationResult)
    (h : compile s = some r) :
    (rustTrim s = [] ∧ r = fail_with_error .EmptyInput) ∨
    (rustTrim s ≠ [] ∧ clausesOf s = [] ∧ r = fail_with_error .NoClauses) ∨
    (clausesOf s ≠ [] ∧
      ∃ e, normalize_intent (clausesOf s) = .error e ∧ r = fail_with_error e) ∨
    (missingPrincipalErrorsFrom 0 (clausesOf s) ≠ [] ∧
      r = fail_with_errors (missingPrincipalErrorsFrom 0 (clausesOf s))) ∨
    (missingPrincipalErrorsFrom 0 (clausesOf s) = [] ∧
      icaeErrorsFrom 0 (clausesOf s) ≠ [] ∧
      r = fail_with_errors (icaeErrorsFrom 0 (clausesOf s))) ∨
    (missingPrincipalErrorsFrom 0 (clausesOf s) = [] ∧
      icaeErrorsFrom 0 (clausesOf s) = [] ∧
      ∃ norm dio,
        normalize_intent (clausesOf s) = .ok norm ∧
        compile_dio_invariants (clausesOf s) = some dio ∧
        r.intent_normalization = norm ∧
        r.dio_invariants = dio.flatten ∧
        r.verdict = .Pass ∧ r.errors = []) := by
  unfold compile at h
  split at h
  · rename_i h1
    exact Or.inl ⟨List.isEmpty_iff.mp h1, (Option.some.inj h).symm⟩
  · rename_i h1
    split at h
    · rename_i h2
      exact Or.inr (Or.inl ⟨fun hh => h1 (List.isEmpty_iff.mpr hh),
        List.isEmpty_iff.mp h2, (Option.some.inj h).symm⟩)
    · rename_i h2
      split at h
      · rename_i e hn
        exact Or.inr (Or.inr (Or.inl ⟨fun hh => h2 (List.isEmpty_iff.mpr hh),
          e, hn, (Option.some.inj h).symm⟩))
      · rename_i norm hn
        split at h
        · exact Option.noConfusion h
        · rename_i dio hd
          split at h
          · exact Option.noConfusion h
          · rename_i auth auth_errors hz
            have hze : auth_errors = missingPrincipalErrorsFrom 0 (clausesOf s) :=
              ztAux_snd (clausesOf s) 0 auth auth_errors hz
            split at h
            · rename_i hae
              split at h
              · exact Option.noConfusion h
              · rename_i cost cost_errors hi
                have hie : cost_errors = icaeErrorsFrom 0 (clausesOf s) :=
                  icaeAux_snd (clausesOf s) 0 cost cost_errors hi
                split at h
                · rename_i hce
                  refine Or.inr (Or.inr (Or.inr (Or.inr (Or.inr
                    ⟨hze ▸ List.isEmpty_iff.mp hae, hie ▸ List.isEmpty_iff.mp hce,
                     norm, dio, hn, hd, ?_, ?_, ?_, ?_⟩))))
                  all_goals rw [← Option.some.inj h]
                · rename_i hce
                  refine Or.inr (Or.inr (Or.inr (Or.inr (Or.inl
                    ⟨hze ▸ List.isEmpty_iff.mp hae, ?_, ?_⟩))))
                  · exact fun hh => hce (List.isEmpty_iff.mpr (hie ▸ hh))
                  · rw [← hie]
                    exact (Option.some.inj h).symm
            · rename_i hae
              refine Or.inr (Or.inr (Or.inr (Or.inl ⟨?_, ?_⟩)))
              · exact fun hh => hae (List.isEmpty_iff.mpr (hze ▸ hh))
              · rw [← hze]
                exact (Option.some.inj h).symm

/-- Dropping a final empty piece does not change the trimmed-and-filtered
segment list. -/
theorem filter_map_dropLast_last_nil :
    ∀ l : List Str, l.getLast? = some [] →
      ((l.dropLast.map rustTrim).filter fun s => !s.isEmpty) =
        ((l.map rustTrim).filter fun s => !s.isEmpty) := by
  intro l
  induction l with
  | nil => intro hl; simp at hl
  | cons a rest ih =>
    intro hl
    cases rest with
    | nil =>
      have ha : a = [] := by simpa using hl
      subst ha
      rfl
    | cons b rest2 =>
      have hl2 : (b :: rest2).getLast? = some [] := by
        simpa using hl
      have hd : (a :: b :: rest2).dropLast = a :: (b :: rest2).dropLast := rfl
      rw [hd]
      simp only [List.map_cons, List.filter_cons]
      rw [ih hl2]
      by_cases hpa : (!List.isEmpty (rustTrim a)) = true <;>
        simp [hpa, List.filter_cons]

/-- `parse_clauses` computes exactly the claim-side segmentation. -/
theorem parse_clauses_eq_segmentsSpec (t : Str) :
    parse_clauses t = segmentsSpec t := by
  unfold parse_clauses segmentsSpec splitTerminatorDot
  by_cases hl : (splitDot t).getLast? = some []
  · rw [if_pos hl]
    exact filter_map_dropLast_last_nil (splitDot t) hl
  · rw [if_neg hl]

/-- The error list determines equality between reset failure results. -/
theorem eq_single_error {x : CompilationError} {es : List CompilationError}
    (h : fail_with_error x = fail_with_errors es) : es = [x] :=
  (congrArg CompilationResult.errors h).symm

/-- A surfaced-shape error is neither an `IntentNormalizationFailed` nor an
`InternalError`. -/
theorem surfacedShape_excludes (e : CompilationError) (hs : surfacedShape e) :
    (∀ reason, e ≠ .IntentNormalizationFailed reason) ∧
    (∀ context, e ≠ .InternalError context) := by
  rcases hs with h | h | ⟨i, c, w, h⟩ | ⟨i, c, h⟩ | ⟨i, c, h⟩ | ⟨i, c, h⟩ | ⟨i, c, h⟩ | ⟨i, c, h⟩ <;>
    subst h <;>
    exact ⟨fun _ hh => CompilationError.noConfusion hh,
           fun _ hh => CompilationError.noConfusion hh⟩

/-- The flattened output of the DIO worker: one invariant per clause, in
clause order, with the identifiers determined by the clause index. -/
theorem dioAux_flatten :
    ∀ (cl : List Str) (i : Nat) (ll : List (List DIOInvariant)),
      dioAux i cl = some ll →
      ll.flatten.length = cl.length ∧
      ∀ k, k < cl.length →
        ∃ inv, ll.flatten.get? k = some inv ∧
          inv.id = strDio (i + k) ∧ inv.clause_index = i + k ∧
          inv.failure_signal = strViol (i + k) := by
  intro cl
  induction cl with
  | nil =>
    intro i ll h
    simp only [dioAux] at h
    rw [← Option.some.inj h]
    exact ⟨rfl, fun k hk => absurd hk (Nat.not_lt_zero k)⟩
  | cons c rest ih =>
    intro i ll h
    simp only [dioAux] at h
    cases ht : truncate_clause c 50 with
    | none => rw [ht] at h; exact Option.noConfusion h
    | some t =>
      rw [ht] at h
      cases hr : dioAux (i + 1) rest with
      | none => rw [hr] at h; exact Option.noConfusion h
      | some tail =>
        rw [hr] at h
        rw [← Option.some.inj h]
        obtain ⟨hlen, hfields⟩ := ih (i + 1) tail hr
        constructor
        · simpa using hlen
        · intro k hk
          cases k with
          | zero =>
            refine ⟨_, rfl, ?_, ?_, ?_⟩ <;> rw [Nat.add_zero]
          | succ k' =>
            obtain ⟨inv, hget, h1, h2, h3⟩ :=
              hfields k' (Nat.lt_of_succ_lt_succ hk)
            have e : i + 1 + k' = i + (k' + 1) := by omega
            rw [e] at h1 h2 h3
            exact ⟨inv, hget, h1, h2, h3⟩

/-- If some clause contains a modal word, the modal pass reports the first
such clause, together with the first matching modal word for it. -/
theorem modalPass_first :
    ∀ (cl : List Str) (i : Nat),
      (∃ c, c ∈ cl ∧ findModalWord c ≠ none) →
      ∃ k ck w, cl.get? k = some ck ∧
        (∀ j cj, j < k → cl.get? j = some cj → findModalWord cj = none) ∧
        findModalWord ck = some w ∧
        modalPass i cl = some (.ModalLanguageDetected (i + k) ck w) := by
  intro cl
  induction cl with
  | nil =>
    intro i hex
    obtain ⟨c, hc, _⟩ := hex
    simp at hc
  | cons c rest ih =>
    intro i hex
    cases hm : findModalWord c with
    | some w =>
      refine ⟨0, c, w, rfl, fun j cj hj _ => absurd hj (Nat.not_lt_zero j), hm, ?_⟩
      simp [modalPass, hm]
    | none =>
      obtain ⟨c', hc', hmw⟩ := hex
      have hc'rest : c' ∈ rest := by
        rcases List.mem_cons.mp hc' with h1 | h2
        · subst h1; exact absurd hm hmw
        · exact h2
      obtain ⟨k, ck, w, hget, hmin, hmw2, hpass⟩ := ih (i + 1) ⟨c', hc'rest, hmw⟩
      refine ⟨k + 1, ck, w, by simpa using hget, ?_, hmw2, ?_⟩
      · intro j cj hj hgetj
        cases j with
        | zero =>
          have : c = cj := Option.some.inj (by simpa using hgetj)
          rw [← this]
          exact hm
        | succ j' =>
          exact hmin j' cj (Nat.lt_of_succ_lt_succ hj) (by simpa using hgetj)
      · simp only [modalPass, hm]
        rw [show i + (k + 1) = i + 1 + k by omega]
        exact hpass

/-- Uppercasing never creates or destroys whitespace. -/
theorem charIsWs_charUpper (c : Nat) : charIsWs (charUpper c) = charIsWs c := by
  unfold charUpper
  split
  · rename_i hc
    unfold charIsWs
    simp only [decide_eq_decide]
    omega
  · rfl

/-- Uppercasing never creates or destroys alphanumeric status. -/
theorem charIsAlnum_charUpper (c : Nat) : charIsAlnum (charUpper c) = charIsAlnum c := by
  unfold charUpper
  split
  · rename_i hc
    unfold charIsAlnum
    simp only [decide_eq_decide]
    omega
  · rfl

/-- Whitespace splitting commutes with per-character uppercasing. -/
theorem splitWsAux_map_charUpper :
    ∀ (s acc : Str),
      splitWsAux (s.map charUpper) (acc.map charUpper) =
        (splitWsAux s acc).map (List.map charUpper) := by
  intro s
  induction s with
  | nil =>
    intro acc
    cases acc with
    | nil => rfl
    | cons a as => simp [splitWsAux]
  | cons c cs ih =>
    intro acc
    simp only [List.map_cons, splitWsAux, charIsWs_charUpper]
    by_cases hw : charIsWs c = true
    · simp only [if_pos hw]
      cases acc with
      | nil => simpa using ih []
      | cons a as =>
        simp only [List.isEmpty_cons, List.map_cons]
        have := ih []
        simp only [List.map_nil] at this
        simp [this]
    · simp only [if_neg hw]
      exact ih (c :: acc)

/-- `splitWs ∘ toUpper` in terms of `splitWs`. -/
theorem splitWs_toUpper (clause : Str) :
    splitWs (toUpper clause) = (splitWs clause).map (List.map charUpper) :=
  splitWsAux_map_charUpper clause []

/-- Boundary stripping commutes with per-character uppercasing. -/
theorem trimNonAlnum_map_charUpper (t : Str) :
    trimNonAlnum (t.map charUpper) = (trimNonAlnum t).map charUpper := by
  have hp : ((fun c => !charIsAlnum c) ∘ charUpper) = fun c => !charIsAlnum c := by
    funext c
    simp [Function.comp, charIsAlnum_charUpper]
  unfold trimNonAlnum
  rw [List.dropWhile_map, hp, ← List.map_reverse, List.dropWhile_map, hp, ← List.map_reverse]

/-- The token list computed by the code equals the claim-side token list. -/
theorem codeTokens_eq_claimTokens (clause : Str) :
    (splitWs (toUpper clause)).map trimNonAlnum = claimTokens clause := by
  rw [splitWs_toUpper]
  unfold claimTokens
  rw [List.map_map]
  congr 1
  funext t
  exact trimNonAlnum_map_charUpper t

/-- The ordered three-way token match of the code is exactly the
canonical-name table. -/
theorem findSome?_principal_eq (l : List Str) :
    (l.findSome? fun token =>
      if token = str ("SYSTEM") then some Principal.System
      else if token = str ("USER") then some Principal.User
      else if token = str ("SERVICE") then some Principal.Service
      else none) =
    l.findSome? principalOfName := rfl

/-- Positional characterization of the ICAE worker's artifact lists. -/
theorem icaeAux_spec :
    ∀ (cl : List Str) (i : Nat) (arts : List (List ICAECostConstraint))
      (errs : List CompilationError),
      icaeAux i cl = some (arts, errs) →
      arts.length = cl.length ∧
      ∀ k c, cl.get? k = some c →
        ∃ entry, arts.get? k = some entry ∧ icaeClauseSpec (i + k) c entry := by
  intro cl
  induction cl with
  | nil =>
    intro i arts errs h
    simp only [icaeAux] at h
    have := (Prod.mk.injEq _ _ _ _ ▸ Option.some.inj h).1
    rw [← this]
    exact ⟨rfl, fun k c hk => by simp at hk⟩
  | cons c rest ih =>
    intro i arts errs h
    simp only [icaeAux] at h
    by_cases hc : has_cost_mention c = true
    · rw [if_pos hc] at h
      cases hs : extract_subject c with
      | none =>
        rw [hs] at h
        cases hr : icaeAux (i + 1) rest with
        | none => rw [hr] at h; exact Option.noConfusion h
        | some p =>
          rw [hr] at h
          obtain ⟨tails, errs'⟩ := p
          have harts := (Prod.mk.injEq _ _ _ _ ▸ Option.some.inj h).1
          rw [← harts]
          obtain ⟨hlen, hspec⟩ := ih (i + 1) tails errs' hr
          refine ⟨by simpa using hlen, ?_⟩
          intro k d hk
          cases k with
          | zero =>
            have hd : c = d := Option.some.inj hk
            subst hd
            refine ⟨[], rfl, ?_⟩
            unfold icaeClauseSpec
            rw [if_pos hc, ← extract_subject_eq, hs]
          | succ k' =>
            obtain ⟨entry, hg, hsp⟩ := hspec k' d (by simpa using hk)
            exact ⟨entry, hg, by rw [show i + (k' + 1) = i + 1 + k' by omega]; exact hsp⟩
      | some subject =>
        rw [hs] at h
        cases hu : MeasurementUnit.from_clause c with
        | none =>
          rw [hu] at h
          cases hr : icaeAux (i + 1) rest with
          | none => rw [hr] at h; exact Option.noConfusion h
          | some p =>
            rw [hr] at h
            obtain ⟨tails, errs'⟩ := p
            have harts := (Prod.mk.injEq _ _ _ _ ▸ Option.some.inj h).1
            rw [← harts]
            obtain ⟨hlen, hspec⟩ := ih (i + 1) tails errs' hr
            refine ⟨by simpa using hlen, ?_⟩
            intro k d hk
            cases k with
            | zero =>
              have hd : c = d := Option.some.inj hk
              subst hd
              refine ⟨[], rfl, ?_⟩
              unfold icaeClauseSpec
              rw [if_pos hc, ← extract_subject_eq, hs, hu]
            | succ k' =>
              obtain ⟨entry, hg, hsp⟩ := hspec k' d (by simpa using hk)
              exact ⟨entry, hg, by rw [show i + (k' + 1) = i + 1 + k' by omega]; exact hsp⟩
        | some unit =>
          rw [hu] at h
          cases ht : truncate_clause c 30 with
          | none => rw [ht] at h; exact Option.noConfusion h
          | some t =>
            rw [ht] at h
            cases hr : icaeAux (i + 1) rest with
            | none => rw [hr] at h; exact Option.noConfusion h
            | some p =>
              rw [hr] at h
              obtain ⟨tails, errs'⟩ := p
              have harts := (Prod.mk.injEq _ _ _ _ ▸ Option.some.inj h).1
              rw [← harts]
              obtain ⟨hlen, hspec⟩ := ih (i + 1) tails errs' hr
              refine ⟨by simpa using hlen, ?_⟩
              intro k d hk
              cases k with
              | zero =>
                have hd : c = d := Option.some.inj hk
                subst hd
                refine ⟨_, rfl, ?_⟩
                unfold icaeClauseSpec
                rw [if_pos hc, ← extract_subject_eq, hs, hu]
                exact ⟨[str ("External cost from: ") ++ t], by rw [Nat.add_zero]⟩
              | succ k' =>
                obtain ⟨entry, hg, hsp⟩ := hspec k' d (by simpa using hk)
                exact ⟨entry, hg, by rw [show i + (k' + 1) = i + 1 + k' by omega]; exact hsp⟩
    · rw [if_neg hc] at h
      cases hr : icaeAux (i + 1) rest with
      | none => rw [hr] at h; exact Option.noConfusion h
      | some p =>
        rw [hr] at h
        obtain ⟨tails, errs'⟩ := p
        have harts := (Prod.mk.injEq _ _ _ _ ▸ Option.some.inj h).1
        rw [← harts]
        obtain ⟨hlen, hspec⟩ := ih (i + 1) tails errs' hr
        refine ⟨by simpa using hlen, ?_⟩
        intro k d hk
        cases k with
        | zero =>
          have hd : c = d := Option.some.inj hk
          subst hd
          refine ⟨[], rfl, ?_⟩
          unfold icaeClauseSpec
          rw [if_neg hc]
        | succ k' =>
          obtain ⟨entry, hg, hsp⟩ := hspec k' d (by simpa using hk)
          exact ⟨entry, hg, by rw [show i + (k' + 1) = i + 1 + k' by omega]; exact hsp⟩

/-! Claim theorems. -/

/-- Claim C1 (code bug): the claim that `compile` never panics and that
clause truncation operates on character boundaries fails on the code.  On
`w1in` — a clause whose 50th byte falls inside the two-byte character `é` —
the byte slice of `truncate_clause` is not on a character boundary and the
compiler panics, modelled here by `compile` returning `none`. -/
theorem truncation_panics_inside_multibyte : compile w1in = none := rfl

/-- Claim C2: whenever `compile` returns normally with verdict `Fail`, the
artifact collections, the traceability map, and all three components of the
intent normalization are empty, whatever stage failed. -/
theorem fail_result_is_fully_reset (s : Str) (r : CompilationResult)
    (h : compile s = some r) (hf : r.verdict = .Fail) :
    r.dio_invariants = [] ∧ r.zt_authority_graph = [] ∧ r.icae_constraints = [] ∧
    r.traceability_map = [] ∧ r.intent_normalization.clauses = [] ∧
    r.intent_normalization.assumptions = [] ∧ r.intent_normalization.exclusions = [] := by
  rcases compile_inversion s r h with
    ⟨_, hr⟩ | ⟨_, _, hr⟩ | ⟨_, e, _, hr⟩ | ⟨_, hr⟩ | ⟨_, _, hr⟩ |
    ⟨_, _, norm, dio, _, _, _, _, hv, _⟩
  · subst hr; exact ⟨rfl, rfl, rfl, rfl, rfl, rfl, rfl⟩
  · subst hr; exact ⟨rfl, rfl, rfl, rfl, rfl, rfl, rfl⟩
  · subst hr; exact ⟨rfl, rfl, rfl, rfl, rfl, rfl, rfl⟩
  · subst hr; exact ⟨rfl, rfl, rfl, rfl, rfl, rfl, rfl⟩
  · subst hr; exact ⟨rfl, rfl, rfl, rfl, rfl, rfl, rfl⟩
  · rw [hv] at hf; exact CompilationStatus.noConfusion hf

/-- Witness for C2 at the empty input. -/
theorem fail_result_is_fully_reset_witness :
    compile (str ("")) = some (fail_with_error .EmptyInput) ∧
    (fail_with_error .EmptyInput).verdict = .Fail ∧
    (fail_with_error .EmptyInput).dio_invariants = [] ∧
    (fail_with_error .EmptyInput).intent_normalization.clauses = [] := by
  have main := fail_result_is_fully_reset (str ("")) (fail_with_error .EmptyInput) rfl rfl
  exact ⟨rfl, rfl, main.1, main.2.2.2.2.1⟩

/-- Claim C3: for inputs that pass intent normalization, a principal-less
clause makes `compile` fail with exactly the list of `MissingPrincipal`
errors, one per principal-less clause in ascending clause order — all
clauses are scanned, and no ICAE cost error can co-occur. -/
theorem missing_principal_aggregation (s : Str) (r : CompilationResult)
    (h : compile s = some r)
    (hn : ∃ norm, normalize_intent (clausesOf s) = .ok norm)
    (hp : ∃ c, c ∈ clausesOf s ∧ Principal.from_clause c = none) :
    r.verdict = .Fail ∧
    r.errors = missingPrincipalErrorsFrom 0 (clausesOf s) ∧
    ∀ e ∈ r.errors, ∃ j c, e = .MissingPrincipal j c := by
  obtain ⟨norm, hnorm⟩ := hn
  obtain ⟨c, hcmem, hcnone⟩ := hp
  have hne : missingPrincipalErrorsFrom 0 (clausesOf s) ≠ [] :=
    missingPrincipalErrorsFrom_ne_nil (clausesOf s) 0 c hcmem hcnone
  rcases compile_inversion s r h with
    ⟨ht, _⟩ | ⟨_, hcl, _⟩ | ⟨_, e, herr, _⟩ | ⟨_, hr⟩ | ⟨hmp, _, _⟩ |
    ⟨hmp, _, _⟩
  · exact absurd (clausesOf_eq_nil_of_trim ht ▸ hcmem) (List.not_mem_nil c)
  · exact absurd (hcl ▸ hcmem) (List.not_mem_nil c)
  · rw [hnorm] at herr; exact Except.noConfusion herr
  · subst hr
    exact ⟨rfl, rfl, fun e he => mem_missingPrincipalErrorsFrom _ _ _ he⟩
  · exact absurd hmp hne
  · exact absurd hmp hne

/-- Witness for C3: two verb-bearing clauses, neither naming a principal. -/
theorem missing_principal_aggregation_witness :
    compile w3in = some w3res ∧ w3res.verdict = .Fail ∧
    w3res.errors = missingPrincipalErrorsFrom 0 (clausesOf w3in) := by
  have main := missing_principal_aggregation w3in w3res rfl
    ⟨{ clauses := [str ("Log all actions"), str ("Audit records")],
       assumptions := [], exclusions := [] }, rfl⟩
    ⟨str ("Log all actions"), by decide, by decide⟩
  exact ⟨rfl, main.1, main.2.1⟩

/-- Claim C4: the modal-language pass runs before the action-verb and
multi-action passes, so any clause containing a modal word makes `compile`
fail with a single `ModalLanguageDetected` error naming the first such
clause and its first matching modal word — even when an earlier clause
lacks an action verb. -/
theorem modal_detection_takes_priority (s : Str) (r : CompilationResult)
    (h : compile s = some r)
    (hm : ∃ c, c ∈ clausesOf s ∧ findModalWord c ≠ none) :
    r.verdict = .Fail ∧
    ∃ k ck w, (clausesOf s).get? k = some ck ∧
      (∀ j cj, j < k → (clausesOf s).get? j = some cj → findModalWord cj = none) ∧
      findModalWord ck = some w ∧
      r.errors = [.ModalLanguageDetected k ck w] := by
  obtain ⟨k, ck, w, hget, hmin, hmw, hpass⟩ := modalPass_first (clausesOf s) 0 hm
  rw [Nat.zero_add] at hpass
  have hnorm : normalize_intent (clausesOf s) =
      .error (.ModalLanguageDetected k ck w) := by
    unfold normalize_intent
    rw [hpass]
  have hcl : clausesOf s ≠ [] := by
    obtain ⟨c, hc, _⟩ := hm
    exact List.ne_nil_of_mem hc
  have hcompile : compile s =
      some (fail_with_error (.ModalLanguageDetected k ck w)) := by
    unfold compile
    rw [if_neg (fun hh => hcl (clausesOf_eq_nil_of_trim (List.isEmpty_iff.mp hh))),
        if_neg (fun hh => hcl (List.isEmpty_iff.mp hh)), hnorm]
  rw [h] at hcompile
  have hr := Option.some.inj hcompile
  subst hr
  exact ⟨rfl, k, ck, w, hget, hmin, hmw, rfl⟩

/-- Witness for C4: the first clause lacks an action verb, yet the modal
word `may` in the second clause is what gets reported. -/
theorem modal_detection_takes_priority_witness :
    compile w4in = some w4res ∧ w4res.verdict = .Fail ∧
    w4res.errors = [.ModalLanguageDetected 1 (str ("Logging may happen")) (str ("may"))] := by
  have main := modal_detection_takes_priority w4in w4res rfl
    ⟨str ("Logging may happen"), by decide, by decide⟩
  exact ⟨rfl, main.1, rfl⟩

/-- Claim C5 (amended: token length is measured in UTF-8 bytes, as the code
does, not in characters): the ICAE stage gives no artifact and no error for
clauses without a cost indicator; a cost-bearing clause yields exactly one
constraint with identifier `icae_<index>` and unset ceiling iff byte-length
subject extraction and unit resolution both succeed, and otherwise
contributes a `MissingCostSubject` (no subject) or `MissingMeasurementUnit`
(subject but no unit) error, aggregated across all clauses. -/
theorem icae_stage_characterization (clauses : List Str)
    (arts : List (List ICAECostConstraint)) (errs : List CompilationError)
    (h : compile_icae_constraints clauses = some (arts, errs)) :
    errs = icaeErrorsFrom 0 clauses ∧
    arts.length = clauses.length ∧
    ∀ k c, clauses.get? k = some c →
      ∃ entry, arts.get? k = some entry ∧ icaeClauseSpec k c entry := by
  have h1 := icaeAux_snd clauses 0 arts errs h
  have h2 := icaeAux_spec clauses 0 arts errs h
  refine ⟨h1, h2.1, ?_⟩
  intro k c hk
  obtain ⟨entry, hg, hs⟩ := h2.2 k c hk
  rw [Nat.zero_add] at hs
  exact ⟨entry, hg, hs⟩

/-- Counterexample to C5 as stated: `w5cex` is cost-bearing and has no
subject under the claim's character-length reading, yet the ICAE stage
records no error at all (the code accepts the 2-character, 4-byte token
`éé` as subject). -/
theorem icae_subject_char_length_counterexample :
    has_cost_mention w5cex = true ∧
    subjectByCharLength w5cex = none ∧
    (compile_icae_constraints [w5cex]).map Prod.snd = some [] :=
  ⟨rfl, rfl, rfl⟩

/-- Witness for C5 at a one-clause cost input. -/
theorem icae_stage_characterization_witness :
    compile_icae_constraints w5cl = some w5res ∧
    w5res.2 = icaeErrorsFrom 0 w5cl ∧
    w5res.1.length = w5cl.length := by
  have main := icae_stage_characterization w5cl w5res.1 w5res.2 rfl
  exact ⟨rfl, main.1, main.2.1⟩

/-- Claim C6: measurement-unit resolution rejects any clause containing a
currency glyph (or mis-decoded variant) outright; on glyph-free clauses it
returns the first keyword of the fixed priority order contained
case-insensitively; and on the specification's example the `$` cost clause
fails with `MissingMeasurementUnit` at index 1. -/
theorem unit_resolution_rules :
    (∀ clause : Str, (CURRENCY_GLYPHS.any fun g => isSubstr g clause) = true →
      MeasurementUnit.from_clause clause = none) ∧
    (∀ clause : Str, (CURRENCY_GLYPHS.any fun g => isSubstr g clause) = false →
      MeasurementUnit.from_clause clause =
        UNIT_PRIORITY.findSome? fun p =>
          if isSubstr p.1 (toLower clause) then some p.2 else none) ∧
    compile w6in = some (fail_with_errors
      [.MissingMeasurementUnit 1
        (str ("Cost of logging cannot exceed $1000 per month by SERVICE"))]) := by
  refine ⟨?_, ?_, rfl⟩
  · intro clause hg
    unfold MeasurementUnit.from_clause
    rw [if_pos hg]
  · intro clause hg
    unfold MeasurementUnit.from_clause
    rw [if_neg (by simp [hg])]
    by_cases h1 : isSubstr (str ("usd")) (toLower clause) = true
    · simp [UNIT_PRIORITY, h1]
    · rw [if_neg h1]
      by_cases h2 : isSubstr (str ("eur")) (toLower clause) = true
      · simp [UNIT_PRIORITY, h1, h2]
      · rw [if_neg h2]
        by_cases h3 : isSubstr (str ("gbp")) (toLower clause) = true
        · simp [UNIT_PRIORITY, h1, h2, h3]
        · rw [if_neg h3]
          by_cases h4 : isSubstr (str ("tokens")) (toLower clause) = true
          · simp [UNIT_PRIORITY, h1, h2, h3, h4]
          · rw [if_neg h4]
            by_cases h5 : isSubstr (str ("bytes")) (toLower clause) = true
            · simp [UNIT_PRIORITY, h1, h2, h3, h4, h5]
            · rw [if_neg h5]
              by_cases h6 : isSubstr (str ("requests")) (toLower clause) = true
              · simp [UNIT_PRIORITY, h1, h2, h3, h4, h5, h6]
              · rw [if_neg h6]
                by_cases h7 : isSubstr (str ("hours")) (toLower clause) = true
                · simp [UNIT_PRIORITY, h1, h2, h3, h4, h5, h6, h7]
                · rw [if_neg h7]
                  simp [UNIT_PRIORITY, h1, h2, h3, h4, h5, h6, h7]

/-- Witness for C6: a glyph clause resolves to no unit; a glyph-free clause
resolves per the priority order. -/
theorem unit_resolution_rules_witness :
    MeasurementUnit.from_clause (str ("$5 cap")) = none ∧
    MeasurementUnit.from_clause (str ("cap of 700 eur monthly")) = some .Eur := by
  constructor
  · exact unit_resolution_rules.1 (str ("$5 cap")) (by decide)
  · rw [unit_resolution_rules.2.1 (str ("cap of 700 eur monthly")) (by decide)]
    decide

/-- Claim C7: principal resolution tokenizes on whitespace, strips
non-alphanumeric boundary characters, uppercases, and returns the principal
of the first token exactly equal to a canonical name; with no such token it
returns none, and an embedded occurrence such as `SYSTEMWIDE` does not
resolve. -/
theorem principal_resolution_first_exact_token :
    (∀ clause : Str, Principal.from_clause clause = principalByTokens clause) ∧
    (∀ clause : Str,
      (∀ t ∈ claimTokens clause,
        t ≠ str ("SYSTEM") ∧ t ≠ str ("USER") ∧ t ≠ str ("SERVICE")) →
      Principal.from_clause clause = none) ∧
    Principal.from_clause (str ("Audit SYSTEMWIDE activity")) = none := by
  have main : ∀ clause : Str, Principal.from_clause clause = principalByTokens clause := by
    intro clause
    unfold Principal.from_clause principalByTokens
    rw [codeTokens_eq_claimTokens]
    rfl
  refine ⟨main, ?_, by decide⟩
  intro clause hnone
  rw [main clause]
  unfold principalByTokens
  rw [List.findSome?_eq_none_iff]
  intro t ht
  obtain ⟨n1, n2, n3⟩ := hnone t ht
  unfold principalOfName
  rw [if_neg n1, if_neg n2, if_neg n3]

/-- Witness for C7: a clause with no principal token at all. -/
theorem principal_resolution_witness :
    Principal.from_clause (str ("just logging actions")) = none ∧
    Principal.from_clause (str ("done by USER")) =
      principalByTokens (str ("done by USER")) :=
  ⟨principal_resolution_first_exact_token.2.1 (str ("just logging actions")) (by decide),
   principal_resolution_first_exact_token.1 (str ("done by USER"))⟩

/-- Claim C8: DIO invariant generation cannot fail; on every passing run
there is exactly one invariant per clause, in clause order, the `k`-th
carrying identifier `dio_<k>`, clause index `k`, and failure signal
`VIOLATION_DIO_<k>`. -/
theorem dio_invariants_on_pass (s : Str) (r : CompilationResult)
    (h : compile s = some r) (hp : r.verdict = .Pass) :
    r.dio_invariants.length = (clausesOf s).length ∧
    ∀ k, k < (clausesOf s).length →
      ∃ inv, r.dio_invariants.get? k = some inv ∧
        inv.id = strDio k ∧ inv.clause_index = k ∧ inv.failure_signal = strViol k := by
  rcases compile_inversion s r h with
    ⟨_, hr⟩ | ⟨_, _, hr⟩ | ⟨_, e, _, hr⟩ | ⟨_, hr⟩ | ⟨_, _, hr⟩ |
    ⟨_, _, norm, dio, hn, hd, _, hdio, _, _⟩
  · subst hr; exact CompilationStatus.noConfusion hp
  · subst hr; exact CompilationStatus.noConfusion hp
  · subst hr; exact CompilationStatus.noConfusion hp
  · subst hr; exact CompilationStatus.noConfusion hp
  · subst hr; exact CompilationStatus.noConfusion hp
  · obtain ⟨hlen, hfields⟩ := dioAux_flatten (clausesOf s) 0 dio hd
    rw [hdio]
    refine ⟨hlen, ?_⟩
    intro k hk
    obtain ⟨inv, hg, h1, h2, h3⟩ := hfields k hk
    rw [Nat.zero_add] at h1 h2 h3
    exact ⟨inv, hg, h1, h2, h3⟩

/-- Witness for C8 at the specification's passing example. -/
theorem dio_invariants_on_pass_witness :
    compile w8in = some w8res ∧ w8res.verdict = .Pass ∧
    w8res.dio_invariants.length = (clausesOf w8in).length := by
  have main := dio_invariants_on_pass w8in w8res rfl rfl
  exact ⟨rfl, rfl, main.1⟩

/-- Claim C9: `compile` fails with the single error `EmptyInput` exactly
when the trimmed input is empty, with the single error `NoClauses` exactly
when the trimmed input is non-empty but has no non-empty trimmed
`'.'`-segment, and otherwise the clause sequence is exactly the claim-side
segmentation. -/
theorem segmentation_and_structural_errors (s : Str) :
    ((compile s = some (fail_with_error .EmptyInput)) ↔ rustTrim s = []) ∧
    ((compile s = some (fail_with_error .NoClauses)) ↔
      (rustTrim s ≠ [] ∧ segmentsSpec (rustTrim s) = [])) ∧
    clausesOf s = segmentsSpec (rustTrim s) := by
  have hseg : clausesOf s = segmentsSpec (rustTrim s) :=
    parse_clauses_eq_segmentsSpec (rustTrim s)
  refine ⟨⟨?_, ?_⟩, ⟨?_, ?_⟩, hseg⟩
  · intro hc
    rcases compile_inversion s _ hc with
      ⟨ht, _⟩ | ⟨_, _, hr⟩ | ⟨_, e, herr, hr⟩ | ⟨_, hr⟩ | ⟨_, _, hr⟩ |
      ⟨_, _, norm, dio, _, _, _, _, hv, _⟩
    · exact ht
    · exact absurd (congrArg CompilationResult.errors hr) (by decide)
    · have hee : [CompilationError.EmptyInput] = [e] :=
        congrArg CompilationResult.errors hr
      injection hee with he _
      rcases normalize_intent_error_shape _ e herr with ⟨i, c, w, hsh⟩ | ⟨i, c, hsh⟩ | ⟨i, c, hsh⟩ <;>
        rw [hsh] at he <;> exact CompilationError.noConfusion he
    · have hml : missingPrincipalErrorsFrom 0 (clausesOf s) = [CompilationError.EmptyInput] :=
        eq_single_error hr
      have hmem : CompilationError.EmptyInput ∈ missingPrincipalErrorsFrom 0 (clausesOf s) := by
        rw [hml]; exact List.mem_singleton_self _
      rcases mem_missingPrincipalErrorsFrom _ _ _ hmem with ⟨j, c, hsh⟩
      exact CompilationError.noConfusion hsh
    · have hml : icaeErrorsFrom 0 (clausesOf s) = [CompilationError.EmptyInput] :=
        eq_single_error hr
      have hmem : CompilationError.EmptyInput ∈ icaeErrorsFrom 0 (clausesOf s) := by
        rw [hml]; exact List.mem_singleton_self _
      rcases mem_icaeErrorsFrom _ _ _ hmem with ⟨j, c, hsh⟩ | ⟨j, c, hsh⟩ <;>
        exact CompilationError.noConfusion hsh
    · exact absurd hv (by decide)
  · intro ht
    unfold compile
    rw [if_pos (List.isEmpty_iff.mpr ht)]
  · intro hc
    rcases compile_inversion s _ hc with
      ⟨_, hr⟩ | ⟨htne, hcl, _⟩ | ⟨_, e, herr, hr⟩ | ⟨_, hr⟩ | ⟨_, _, hr⟩ |
      ⟨_, _, norm, dio, _, _, _, _, hv, _⟩
    · exact absurd (congrArg CompilationResult.errors hr) (by decide)
    · exact ⟨htne, by rw [← hseg]; exact hcl⟩
    · have hee : [CompilationError.NoClauses] = [e] :=
        congrArg CompilationResult.errors hr
      injection hee with he _
      rcases normalize_intent_error_shape _ e herr with ⟨i, c, w, hsh⟩ | ⟨i, c, hsh⟩ | ⟨i, c, hsh⟩ <;>
        rw [hsh] at he <;> exact CompilationError.noConfusion he
    · have hml : missingPrincipalErrorsFrom 0 (clausesOf s) = [CompilationError.NoClauses] :=
        eq_single_error hr
      have hmem : CompilationError.NoClauses ∈ missingPrincipalErrorsFrom 0 (clausesOf s) := by
        rw [hml]; exact List.mem_singleton_self _
      rcases mem_missingPrincipalErrorsFrom _ _ _ hmem with ⟨j, c, hsh⟩
      exact CompilationError.noConfusion hsh
    · have hml : icaeErrorsFrom 0 (clausesOf s) = [CompilationError.NoClauses] :=
        eq_single_error hr
      have hmem : CompilationError.NoClauses ∈ icaeErrorsFrom 0 (clausesOf s) := by
        rw [hml]; exact List.mem_singleton_self _
      rcases mem_icaeErrorsFrom _ _ _ hmem with ⟨j, c, hsh⟩ | ⟨j, c, hsh⟩ <;>
        exact CompilationError.noConfusion hsh
    · exact absurd hv (by decide)
  · rintro ⟨ht, hsegnil⟩
    unfold compile
    rw [if_neg (fun hh => ht (List.isEmpty_iff.mp hh)),
        if_pos (List.isEmpty_iff.mpr (hseg.trans hsegnil))]

/-- Witness for C9 at the two structural examples of the specification. -/
theorem segmentation_and_structural_errors_witness :
    compile (str ("")) = some (fail_with_error .EmptyInput) ∧
    compile (str ("...")) = some (fail_with_error .NoClauses) :=
  ⟨(segmentation_and_structural_errors (str (""))).1.mpr rfl,
   (segmentation_and_structural_errors (str ("..."))).2.1.mpr ⟨by decide, rfl⟩⟩

/-- Claim C10: every error a normal run of `compile` returns has one of the
eight surfaced shapes; in particular neither `IntentNormalizationFailed`
nor `InternalError` ever occurs in a result. -/
theorem surfaced_error_variants (s : Str) (r : CompilationResult)
    (h : compile s = some r) :
    ∀ e ∈ r.errors, surfacedShape e ∧
      (∀ reason, e ≠ .IntentNormalizationFailed reason) ∧
      (∀ context, e ≠ .InternalError context) := by
  intro e he
  have hs : surfacedShape e := by
    rcases compile_inversion s r h with
      ⟨_, hr⟩ | ⟨_, _, hr⟩ | ⟨_, e', herr, hr⟩ | ⟨_, hr⟩ | ⟨_, _, hr⟩ |
      ⟨_, _, norm, dio, _, _, _, _, _, herrs⟩
    · subst hr
      have he' : e ∈ [CompilationError.EmptyInput] := he
      rw [List.mem_singleton] at he'
      exact Or.inl he'
    · subst hr
      have he' : e ∈ [CompilationError.NoClauses] := he
      rw [List.mem_singleton] at he'
      exact Or.inr (Or.inl he')
    · subst hr
      have he' : e ∈ [e'] := he
      rw [List.mem_singleton] at he'
      subst he'
      rcases normalize_intent_error_shape _ _ herr with ⟨i, c, w, hsh⟩ | ⟨i, c, hsh⟩ | ⟨i, c, hsh⟩
      · exact Or.inr (Or.inr (Or.inl ⟨i, c, w, hsh⟩))
      · exact Or.inr (Or.inr (Or.inr (Or.inl ⟨i, c, hsh⟩)))
      · exact Or.inr (Or.inr (Or.inr (Or.inr (Or.inl ⟨i, c, hsh⟩))))
    · subst hr
      have he' : e ∈ missingPrincipalErrorsFrom 0 (clausesOf s) := he
      obtain ⟨j, c, hsh⟩ := mem_missingPrincipalErrorsFrom _ _ _ he'
      exact Or.inr (Or.inr (Or.inr (Or.inr (Or.inr (Or.inl ⟨j, c, hsh⟩)))))
    · subst hr
      have he' : e ∈ icaeErrorsFrom 0 (clausesOf s) := he
      rcases mem_icaeErrorsFrom _ _ _ he' with ⟨j, c, hsh⟩ | ⟨j, c, hsh⟩
      · exact Or.inr (Or.inr (Or.inr (Or.inr (Or.inr (Or.inr (Or.inr ⟨j, c, hsh⟩))))))
      · exact Or.inr (Or.inr (Or.inr (Or.inr (Or.inr (Or.inr (Or.inl ⟨j, c, hsh⟩))))))
    · rw [herrs] at he
      simp at he
  exact ⟨hs, surfacedShape_excludes e hs⟩

/-- Witness for C10 at the empty input. -/
theorem surfaced_error_variants_witness :
    compile (str ("")) = some (fail_with_error .EmptyInput) ∧
    surfacedShape CompilationError.EmptyInput := by
  have main := surfaced_error_variants (str ("")) (fail_with_error .EmptyInput) rfl
    CompilationError.EmptyInput (List.mem_singleton_self _)
  exact ⟨rfl, main.1⟩

end Poc
